import Mathlib

/-!
Verification of the line rewriter in `src/convert.py` against its
specification.  The program reads a file line by line, applies the two
literal substring replacements `line.replace('S1000', 'Z-1')` and then
`line.replace('S0', 'Z1')`, writes each transformed line to the file
`converted_output.nc`, and prints a confirmation message.  With a wrong
argument count it prints a usage message and exits with status 1.

Lines are modelled as `List Char` (each line carries its own terminator
characters, which `open(..., newline='')` preserves verbatim).  Python's
`str.replace(old, new)` for a non-empty `old` is modelled by the
left-to-right, non-overlapping scanner `replace` below; both patterns in
the source (`'S1000'`, `'S0'`) are non-empty, so the empty-pattern corner
of Python's `replace` is never exercised and is not modelled.
-/

/-- Fuel-indexed implementation of the replacement scanner; the fuel only
serves to make the recursion structural, and is irrelevant as soon as it
is at least the length of the scanned list (`replaceG_congr`). -/
def replaceG (pat rep : List Char) : Nat → List Char → List Char
  | _, [] => []
  | 0, s => s
  | fuel + 1, c :: rest =>
    if pat.isPrefixOf (c :: rest) then
      rep ++ replaceG pat rep fuel (rest.drop (pat.length - 1))
    else
      c :: replaceG pat rep fuel rest

/-- Model of Python `s.replace(pat, rep)` for the non-empty literal
patterns used in `src/convert.py`: scan left to right; at the first
position where `pat` matches, emit `rep`, skip the matched characters and
continue after them (occurrences are non-overlapping); otherwise keep the
character and move on.  Characterised by `replace_nil` and
`replace_cons`. -/
def replace (pat rep s : List Char) : List Char :=
  replaceG pat rep s.length s

theorem replaceG_congr (pat rep : List Char) :
    ∀ m n s, s.length ≤ m → s.length ≤ n →
      replaceG pat rep m s = replaceG pat rep n s := by
  intro m
  induction m with
  | zero =>
    intro n s hm _
    have : s = [] := List.length_eq_zero.mp (Nat.le_zero.mp hm)
    subst this
    cases n <;> rfl
  | succ m ih =>
    intro n s hm hn
    cases s with
    | nil => cases n <;> rfl
    | cons c rest =>
      cases n with
      | zero => exact absurd hn (by simp)
      | succ n =>
        simp only [replaceG]
        by_cases h : pat.isPrefixOf (c :: rest)
        · have hd : (rest.drop (pat.length - 1)).length ≤ rest.length := by
            rw [List.length_drop]; omega
          have hm' : (rest.drop (pat.length - 1)).length ≤ m := by
            simp only [List.length_cons] at hm; omega
          have hn' : (rest.drop (pat.length - 1)).length ≤ n := by
            simp only [List.length_cons] at hn; omega
          rw [if_pos h, if_pos h, ih n _ hm' hn']
        · have hm' : rest.length ≤ m := by
            simp only [List.length_cons] at hm; omega
          have hn' : rest.length ≤ n := by
            simp only [List.length_cons] at hn; omega
          rw [if_neg h, if_neg h, ih n rest hm' hn']

theorem replace_nil (pat rep : List Char) : replace pat rep [] = [] := rfl

theorem replace_cons (pat rep : List Char) (c : Char) (rest : List Char) :
    replace pat rep (c :: rest) =
      if pat.isPrefixOf (c :: rest) then
        rep ++ replace pat rep (rest.drop (pat.length - 1))
      else
        c :: replace pat rep rest := by
  show replaceG pat rep (rest.length + 1) (c :: rest) = _
  simp only [replaceG]
  by_cases h : pat.isPrefixOf (c :: rest)
  · simp only [h, if_true]
    rw [replaceG_congr pat rep rest.length (rest.drop (pat.length - 1)).length
      (rest.drop (pat.length - 1)) (by rw [List.length_drop]; omega) (Nat.le_refl _)]
    rfl
  · simp only [h, if_false]
    rfl

/-- `containsSub pat s = true` iff the literal substring `pat` occurs
somewhere in `s` (an occurrence is a match of `pat` starting at some
position of `s`). -/
def containsSub (pat : List Char) : List Char → Bool
  | [] => pat.isEmpty
  | c :: rest => pat.isPrefixOf (c :: rest) || containsSub pat rest

/-- First rule's pattern, the literal `'S1000'` of `src/convert.py` line 12. -/
def patS1000 : List Char := "S1000".data

/-- First rule's replacement, the literal `'Z-1'` of line 12. -/
def repZm1 : List Char := "Z-1".data

/-- Second rule's pattern, the literal `'S0'` of line 13. -/
def patS0 : List Char := "S0".data

/-- Second rule's replacement, the literal `'Z1'` of line 13. -/
def repZ1 : List Char := "Z1".data

/-- Lines 12-13 of `src/convert.py`: `line = line.replace('S1000', 'Z-1')`
followed by `line = line.replace('S0', 'Z1')`; the second rule scans the
output of the first. -/
def convertLineA (line : List Char) : List Char :=
  replace patS0 repZ1 (replace patS1000 repZm1 line)

example : convertLineA ("G1 S1000 X10\n".data) = "G1 Z-1 X10\n".data := by decide
example : convertLineA ("G1 S0 Y5\n".data) = "G1 Z1 Y5\n".data := by decide
example : convertLineA ("S10000".data) = "Z-10".data := by decide
example : containsSub patS1000 ("aS1000b".data) = true := by decide
example : containsSub patS1000 ("aS100b".data) = false := by decide

/-- Spec-side search: index of the leftmost occurrence of `pat` in `s`
(`none` when `pat` does not occur).  Written from the spec's glossary:
"replacing every non-overlapping exact occurrence of a fixed text
pattern ... scanning left to right". -/
def findOcc (pat : List Char) : List Char → Option Nat
  | [] => if pat.isEmpty then some 0 else none
  | c :: rest =>
    if pat.isPrefixOf (c :: rest) then some 0
    else (findOcc pat rest).map (fun n => n + 1)

/-- Spec-side replacement, fuel-indexed: repeatedly find the leftmost
occurrence of `pat`, substitute `rep` for it, and continue scanning
strictly after the substituted occurrence (occurrences are
non-overlapping). -/
def specReplaceGo (pat rep : List Char) : Nat → List Char → List Char
  | 0, s => s
  | fuel + 1, s =>
    match findOcc pat s with
    | none => s
    | some i =>
        s.take i ++ rep ++ specReplaceGo pat rep fuel (s.drop (i + pat.length))

/-- Spec-side global replacement of all non-overlapping occurrences of
`pat` by `rep`, scanning left to right; `s.length` is enough fuel because
every substitution consumes at least one character of a non-empty
pattern. -/
def specReplaceAll (pat rep s : List Char) : List Char :=
  specReplaceGo pat rep s.length s

/-- Spec-side description of the Variant A per-line transformation:
apply the rule `S1000 → Z-1` globally, then the rule `S0 → Z1` globally
to the result. -/
def specConvertLineA (line : List Char) : List Char :=
  specReplaceAll patS0 repZ1 (specReplaceAll patS1000 repZm1 line)

/-- Fuel-indexed splitter mirroring the scanner `replaceG` step for step:
it returns the segment before the first match together with the list of
segments between (and after) the later matches; the fuel only makes the
recursion structural. -/
def splitG (pat : List Char) : Nat → List Char → List Char × List (List Char)
  | _, [] => ([], [])
  | 0, s => (s, [])
  | fuel + 1, c :: rest =>
    if pat.isPrefixOf (c :: rest) then
      ([], (splitG pat fuel (rest.drop (pat.length - 1))).1 ::
        (splitG pat fuel (rest.drop (pat.length - 1))).2)
    else
      (c :: (splitG pat fuel rest).1, (splitG pat fuel rest).2)

/-- The decomposition of `s` along the scanner's left-to-right,
non-overlapping matches of `pat`: the list of segments around and between
the matched occurrences, in order.  It is never empty, the segments carry
no occurrence of the pattern, and interleaving `pat` between consecutive
segments recovers `s`. -/
def splitOnPat (pat s : List Char) : List (List Char) :=
  (splitG pat s.length s).1 :: (splitG pat s.length s).2

/-- Interleave `sep` between consecutive chunks. -/
def joinWith (sep : List Char) : List (List Char) → List Char
  | [] => []
  | [x] => x
  | x :: y :: rest => x ++ sep ++ joinWith sep (y :: rest)

/-- The `for line in infile: ... outfile.write(line)` loop of
`src/convert.py` lines 11-14: each transformed line is appended, in input
order, to the lines already written to `outfile`. -/
def runLoopA (written : List (List Char)) : List (List Char) → List (List Char)
  | [] => written
  | line :: rest => runLoopA (written ++ [convertLineA line]) rest

/-- Observable outcome of one program run: process exit status, the lines
printed to standard output, and — when the program creates an output
file — that file's name and the lines written to it. -/
structure ProgResult where
  exitCode : Nat
  stdout : List (List Char)
  outputFile : Option (List Char × List (List Char))
deriving DecidableEq

/-- The usage message printed by `src/convert.py` line 4. -/
def usageMessage : List Char := "Usage: python convert.py <input_file>".data

/-- `output_path = 'converted_output.nc'`, `src/convert.py` line 7. -/
def output_path : List Char := "converted_output.nc".data

/-- The confirmation message of `src/convert.py` line 16,
`f'Converted file written to {output_path}'`. -/
def confirmationMessage : List Char :=
  "Converted file written to ".data ++ output_path

/-- Whole-program model of `src/convert.py` (Variant A).  `argv` models
`sys.argv` (program name included); `inputLines` models the lines of the
input file, each line carrying its own terminator.  When
`len(sys.argv) != 2` the program prints the usage message and exits with
status 1, touching no file; otherwise it writes the transformed lines to
`converted_output.nc`, prints the confirmation message, and exits with
status 0. -/
def convertProgramA (argv : List (List Char)) (inputLines : List (List Char)) :
    ProgResult :=
  if argv.length ≠ 2 then
    { exitCode := 1, stdout := [usageMessage], outputFile := none }
  else
    { exitCode := 0
      stdout := [confirmationMessage]
      outputFile := some (output_path, runLoopA [] inputLines) }

/-- Modelled from the spec: the Variant B replacement rules
(`"S1000" → "Z-1 F1000"`, `"S0" → "Z1 F1000"`, spec §2) — the Variant B
source file is not present under `src/`, which only holds the Variant A
program. -/
def repZm1F1000 : List Char := "Z-1 F1000".data

/-- Modelled from the spec: second Variant B replacement text
(`"S0" → "Z1 F1000"`, spec §2). -/
def repZ1F1000 : List Char := "Z1 F1000".data

/-- Modelled from the spec: the Variant B per-line transformation — the
same two rules in the same fixed order as Variant A, with the Variant B
replacement texts (spec §2, §3). -/
def convertLineB (line : List Char) : List Char :=
  replace patS0 repZ1F1000 (replace patS1000 repZm1F1000 line)

/-- Modelled from the spec: the Variant B program — same CLI surface as
Variant A, but the transformed lines are streamed to standard output and
no output file is produced, with no summary message (spec §2, §4, §6). -/
def convertProgramB (argv : List (List Char)) (inputLines : List (List Char)) :
    ProgResult :=
  if argv.length ≠ 2 then
    { exitCode := 1, stdout := [usageMessage], outputFile := none }
  else
    { exitCode := 0
      stdout := inputLines.map convertLineB
      outputFile := none }

example : convertLineB ("G1 S1000 X10\n".data) = "G1 Z-1 F1000 X10\n".data := by
  decide
example : specConvertLineA ("G1 S1000 X10\n".data) = "G1 Z-1 X10\n".data := by
  decide

/-! ### Helper lemmas about `isPrefixOf`, `containsSub` and `replace` -/

theorem isPrefixOf_cons_iff (a c : Char) (as l : List Char) :
    (a :: as).isPrefixOf (c :: l) = true ↔ a = c ∧ as.isPrefixOf l = true := by
  show (a == c && as.isPrefixOf l) = true ↔ _
  rw [Bool.and_eq_true, beq_iff_eq]

theorem containsSub_cons (pat : List Char) (c : Char) (rest : List Char) :
    containsSub pat (c :: rest) =
      (pat.isPrefixOf (c :: rest) || containsSub pat rest) := rfl

/-- If no character of `a` equals the pattern's first character and `b`
contains no occurrence of the pattern, then `a ++ b` contains none
either. -/
theorem containsSub_append_eq_false (p : Char) (pt : List Char) :
    ∀ a b : List Char, p ∉ a → containsSub (p :: pt) b = false →
      containsSub (p :: pt) (a ++ b) = false := by
  intro a
  induction a with
  | nil => intro b _ hb; simpa using hb
  | cons x a ih =>
    intro b ha hb
    have hxp : p ≠ x := fun h => ha (h ▸ List.mem_cons_self x a)
    rw [List.cons_append, containsSub_cons]
    have h1 : (p :: pt).isPrefixOf (x :: (a ++ b)) = false := by
      rw [Bool.eq_false_iff]
      intro h
      exact hxp ((isPrefixOf_cons_iff p x pt (a ++ b)).mp h).1
    have h2 : containsSub (p :: pt) (a ++ b) = false :=
      ih b (fun h => ha (List.mem_cons_of_mem x h)) hb
    rw [h1, h2, Bool.or_self]

/-- The scanner passes over a block that does not mention the pattern's
first character. -/
theorem replace_append_left (p : Char) (pt rep : List Char) :
    ∀ a b : List Char, p ∉ a →
      replace (p :: pt) rep (a ++ b) = a ++ replace (p :: pt) rep b := by
  intro a
  induction a with
  | nil => intro b _; rfl
  | cons x a ih =>
    intro b ha
    have hxp : p ≠ x := fun h => ha (h ▸ List.mem_cons_self x a)
    rw [List.cons_append, replace_cons]
    have h1 : (p :: pt).isPrefixOf (x :: (a ++ b)) = false := by
      rw [Bool.eq_false_iff]
      intro h
      exact hxp ((isPrefixOf_cons_iff p x pt (a ++ b)).mp h).1
    rw [h1]
    simp only [Bool.false_eq_true, if_false, List.cons_append]
    rw [ih b (fun h => ha (List.mem_cons_of_mem x h))]

theorem containsSub_tail (pat : List Char) (c : Char) (rest : List Char)
    (h : containsSub pat (c :: rest) = false) : containsSub pat rest = false := by
  rw [containsSub_cons, Bool.or_eq_false_iff] at h
  exact h.2

theorem containsSub_drop (pat : List Char) :
    ∀ (s : List Char) (n : Nat), containsSub pat s = false →
      containsSub pat (s.drop n) = false := by
  intro s
  induction s with
  | nil => intro n h; simpa [List.drop_nil] using h
  | cons c rest ih =>
    intro n h
    cases n with
    | zero => exact h
    | succ n => exact ih n (containsSub_tail pat c rest h)

/-- The scanner substitutes at an occurrence sitting at the front of the
scanned text. -/
theorem replace_append_match (pat rep : List Char) (v : List Char)
    (hpat : pat ≠ []) :
    replace pat rep (pat ++ v) = rep ++ replace pat rep v := by
  cases pat with
  | nil => exact absurd rfl hpat
  | cons p pt =>
    rw [List.cons_append, replace_cons]
    have h1 : (p :: pt).isPrefixOf (p :: (pt ++ v)) = true := by
      rw [List.isPrefixOf_iff_prefix]
      exact ⟨v, by simp⟩
    rw [h1]
    simp only [if_true, List.length_cons, Nat.add_sub_cancel, List.drop_left]

/-- Transfer lemma: a suffix `w` of a pattern's tail `pt` that is found at
the front of a replaced text was already at the front of the original
text, provided the replacement text starts with a character that does not
occur in `pt`.  This is what makes a later rule blind to the text an
earlier rule produced. -/
theorem isPrefixOf_replace_transfer (pt pat' rt' : List Char) (r' : Char)
    (hr : r' ∉ pt) :
    ∀ s w : List Char, w <:+ pt →
      w.isPrefixOf (replace pat' (r' :: rt') s) = true →
      w.isPrefixOf s = true := by
  intro s
  induction s with
  | nil =>
    intro w _ h
    rw [replace_nil] at h
    cases w with
    | nil => rfl
    | cons q qt => exact absurd h (by simp [List.isPrefixOf])
  | cons c rest ih =>
    intro w hsuf h
    rw [replace_cons] at h
    by_cases hm : pat'.isPrefixOf (c :: rest)
    · rw [if_pos hm] at h
      cases w with
      | nil => rfl
      | cons q qt =>
        rw [List.cons_append] at h
        have hq : q = r' := ((isPrefixOf_cons_iff q r' qt _).mp h).1
        exact absurd (hq ▸ hsuf.subset (List.mem_cons_self q qt)) hr
    · rw [if_neg hm] at h
      cases w with
      | nil => rfl
      | cons q qt =>
        obtain ⟨hqc, hqt⟩ := (isPrefixOf_cons_iff q c qt _).mp h
        have hsuf' : qt <:+ pt := by
          obtain ⟨u, hu⟩ := hsuf
          exact ⟨u ++ [q], by simpa using hu⟩
        exact (isPrefixOf_cons_iff q c qt rest).mpr ⟨hqc, ih qt hsuf' hqt⟩

/-- After globally replacing the pattern `p :: pt` by a replacement that
avoids `p` and starts with a character foreign to the pattern, no
occurrence of the pattern remains. -/
theorem containsSub_replace_self (p r : Char) (pt rt : List Char)
    (hp : p ∉ (r :: rt)) (hr : r ∉ (p :: pt)) :
    ∀ s, containsSub (p :: pt) (replace (p :: pt) (r :: rt) s) = false := by
  have key : ∀ n s : _, s.length ≤ n →
      containsSub (p :: pt) (replace (p :: pt) (r :: rt) s) = false := by
    intro n
    induction n with
    | zero =>
      intro s hs
      have : s = [] := List.length_eq_zero.mp (Nat.le_zero.mp hs)
      subst this
      rfl
    | succ n ih =>
      intro s hs
      cases s with
      | nil => rfl
      | cons c rest =>
        simp only [List.length_cons] at hs
        rw [replace_cons]
        by_cases hm : (p :: pt).isPrefixOf (c :: rest)
        · rw [if_pos hm]
          refine containsSub_append_eq_false p pt (r :: rt) _ hp (ih _ ?_)
          rw [List.length_drop]
          omega
        · rw [if_neg hm]
          have h2 : containsSub (p :: pt) (replace (p :: pt) (r :: rt) rest)
              = false := ih rest (by omega)
          have h1 : (p :: pt).isPrefixOf
              (c :: replace (p :: pt) (r :: rt) rest) = false := by
            rw [Bool.eq_false_iff]
            intro hpre
            obtain ⟨hpc, hpt⟩ := (isPrefixOf_cons_iff p c pt _).mp hpre
            have hback : pt.isPrefixOf rest = true :=
              isPrefixOf_replace_transfer pt (p :: pt) rt r
                (fun hmem => hr (List.mem_cons_of_mem p hmem))
                rest pt (List.suffix_refl pt) hpt
            exact hm ((isPrefixOf_cons_iff p c pt rest).mpr ⟨hpc, hback⟩)
          rw [containsSub_cons, h1, h2, Bool.or_self]
  intro s
  exact key s.length s (Nat.le_refl _)

/-- Globally replacing some other pattern by a replacement that avoids
`p` and starts with a character foreign to `p :: pt` cannot create an
occurrence of `p :: pt` where there was none. -/
theorem containsSub_replace_other (p r' : Char) (pt pat' rt' : List Char)
    (hp : p ∉ (r' :: rt')) (hr : r' ∉ (p :: pt)) :
    ∀ s, containsSub (p :: pt) s = false →
      containsSub (p :: pt) (replace pat' (r' :: rt') s) = false := by
  have key : ∀ n s : _, s.length ≤ n → containsSub (p :: pt) s = false →
      containsSub (p :: pt) (replace pat' (r' :: rt') s) = false := by
    intro n
    induction n with
    | zero =>
      intro s hs h
      have : s = [] := List.length_eq_zero.mp (Nat.le_zero.mp hs)
      subst this
      exact h
    | succ n ih =>
      intro s hs h
      cases s with
      | nil => exact h
      | cons c rest =>
        simp only [List.length_cons] at hs
        have hrest : containsSub (p :: pt) rest = false :=
          containsSub_tail _ c rest h
        rw [replace_cons]
        by_cases hm : pat'.isPrefixOf (c :: rest)
        · rw [if_pos hm]
          refine containsSub_append_eq_false p pt (r' :: rt') _ hp (ih _ ?_ ?_)
          · rw [List.length_drop]; omega
          · exact containsSub_drop _ rest _ hrest
        · rw [if_neg hm]
          have h2 : containsSub (p :: pt) (replace pat' (r' :: rt') rest)
              = false := ih rest (by omega) hrest
          have h1 : (p :: pt).isPrefixOf
              (c :: replace pat' (r' :: rt') rest) = false := by
            rw [Bool.eq_false_iff]
            intro hpre
            obtain ⟨hpc, hpt⟩ := (isPrefixOf_cons_iff p c pt _).mp hpre
            have hback : pt.isPrefixOf rest = true :=
              isPrefixOf_replace_transfer pt pat' rt' r'
                (fun hmem => hr (List.mem_cons_of_mem p hmem))
                rest pt (List.suffix_refl pt) hpt
            have : containsSub (p :: pt) (c :: rest) = true := by
              rw [containsSub_cons,
                (isPrefixOf_cons_iff p c pt rest).mpr ⟨hpc, hback⟩,
                Bool.true_or]
            rw [this] at h
            exact absurd h (by simp)
          rw [containsSub_cons, h1, h2, Bool.or_self]
  intro s
  exact key s.length s (Nat.le_refl _)

/-- A text containing no occurrence of the pattern is left unchanged by
the scanner. -/
theorem replace_of_containsSub_eq_false (pat rep : List Char) :
    ∀ s, containsSub pat s = false → replace pat rep s = s := by
  intro s
  induction s with
  | nil => intro _; rfl
  | cons c rest ih =>
    intro h
    rw [containsSub_cons, Bool.or_eq_false_iff] at h
    rw [replace_cons, h.1]
    simp only [Bool.false_eq_true, if_false]
    rw [ih h.2]

/-- When the replacement is no longer than the pattern, replacing never
lengthens the text. -/
theorem replace_length_le (pat rep : List Char)
    (hlen : rep.length ≤ pat.length) :
    ∀ s, (replace pat rep s).length ≤ s.length := by
  have key : ∀ n s : _, s.length ≤ n →
      (replace pat rep s).length ≤ s.length := by
    intro n
    induction n with
    | zero =>
      intro s hs
      have : s = [] := List.length_eq_zero.mp (Nat.le_zero.mp hs)
      subst this
      exact Nat.le_refl _
    | succ n ih =>
      intro s hs
      cases s with
      | nil => exact Nat.le_refl _
      | cons c rest =>
        simp only [List.length_cons] at hs
        rw [replace_cons]
        by_cases hm : pat.isPrefixOf (c :: rest)
        · rw [if_pos hm]
          have hple : pat.length ≤ rest.length + 1 := by
            have := (List.isPrefixOf_iff_prefix.mp hm).length_le
            simpa using this
          have hrec := ih (rest.drop (pat.length - 1))
            (by rw [List.length_drop]; omega)
          rw [List.length_drop] at hrec
          rw [List.length_append, List.length_cons]
          omega
        · rw [if_neg hm]
          have hrec := ih rest (by omega)
          simp only [List.length_cons]
          omega
  intro s
  exact key s.length s (Nat.le_refl _)

/-- When the spec-side search finds no occurrence, the code-side scanner
leaves the text unchanged. -/
theorem replace_of_findOcc_none (pat rep : List Char) :
    ∀ s, findOcc pat s = none → replace pat rep s = s := by
  intro s
  induction s with
  | nil => intro _; rfl
  | cons c rest ih =>
    intro h
    rw [findOcc] at h
    by_cases hm : pat.isPrefixOf (c :: rest)
    · rw [if_pos hm] at h
      exact absurd h (by simp)
    · rw [if_neg hm] at h
      rw [replace_cons, if_neg hm, ih (Option.map_eq_none'.mp h)]

/-- An occurrence reported by the spec-side search fits inside the
text. -/
theorem findOcc_some_le (pat : List Char) :
    ∀ s i, findOcc pat s = some i → i + pat.length ≤ s.length := by
  intro s
  induction s with
  | nil =>
    intro i h
    rw [findOcc] at h
    by_cases he : pat.isEmpty
    · rw [if_pos he] at h
      cases h
      simp [List.isEmpty_iff.mp he]
    · rw [if_neg he] at h
      cases h
  | cons c rest ih =>
    intro i h
    rw [findOcc] at h
    by_cases hm : pat.isPrefixOf (c :: rest)
    · rw [if_pos hm] at h
      cases h
      have := (List.isPrefixOf_iff_prefix.mp hm).length_le
      simpa using this
    · rw [if_neg hm] at h
      obtain ⟨j, hj, rfl⟩ := Option.map_eq_some'.mp h
      have := ih j hj
      simp only [List.length_cons]
      omega

/-- Unfolding of the code-side scanner at the leftmost occurrence that the
spec-side search reports. -/
theorem replace_of_findOcc_some (pat rep : List Char) (hpat : pat ≠ []) :
    ∀ s i, findOcc pat s = some i →
      replace pat rep s =
        s.take i ++ rep ++ replace pat rep (s.drop (i + pat.length)) := by
  intro s
  induction s with
  | nil =>
    intro i h
    rw [findOcc, if_neg (by simpa [List.isEmpty_iff] using hpat)] at h
    cases h
  | cons c rest ih =>
    intro i h
    rw [findOcc] at h
    by_cases hm : pat.isPrefixOf (c :: rest)
    · rw [if_pos hm] at h
      cases h
      rw [replace_cons, if_pos hm]
      simp only [List.take_zero, List.nil_append, Nat.zero_add]
      have hp : 1 ≤ pat.length := by
        cases pat with
        | nil => exact absurd rfl hpat
        | cons a as => simp
      have : (c :: rest).drop pat.length = rest.drop (pat.length - 1) := by
        cases hl : pat.length with
        | zero => omega
        | succ k => simp [List.drop_succ_cons]
      rw [this]
    · rw [if_neg hm] at h
      obtain ⟨j, hj, rfl⟩ := Option.map_eq_some'.mp h
      rw [replace_cons, if_neg hm, ih j hj]
      have h1 : (c :: rest).take (j + 1) = c :: rest.take j := by
        simp [List.take_succ_cons]
      have h2 : (c :: rest).drop (j + 1 + pat.length) =
          rest.drop (j + pat.length) := by
        have : j + 1 + pat.length = (j + pat.length) + 1 := by omega
        rw [this, List.drop_succ_cons]
      rw [h1, h2]
      simp

/-- With fuel at least the length of the text, the spec-side repeated
leftmost substitution computes exactly the code-side scanner. -/
theorem specReplaceGo_eq_replace (pat rep : List Char) (hpat : pat ≠ []) :
    ∀ n s, s.length ≤ n → specReplaceGo pat rep n s = replace pat rep s := by
  intro n
  induction n with
  | zero =>
    intro s hs
    have : s = [] := List.length_eq_zero.mp (Nat.le_zero.mp hs)
    subst this
    rfl
  | succ n ih =>
    intro s hs
    rw [specReplaceGo]
    cases hf : findOcc pat s with
    | none => exact (replace_of_findOcc_none pat rep s hf).symm
    | some i =>
      have hle := findOcc_some_le pat s i hf
      have hp : 1 ≤ pat.length := by
        cases pat with
        | nil => exact absurd rfl hpat
        | cons a as => simp
      have hd : (s.drop (i + pat.length)).length ≤ n := by
        rw [List.length_drop]
        omega
      dsimp only
      rw [ih _ hd, replace_of_findOcc_some pat rep hpat s i hf]

/-- The code-side scanner coincides with the spec-side "replace every
non-overlapping occurrence, scanning left to right" operation. -/
theorem replace_eq_specReplaceAll (pat rep : List Char) (hpat : pat ≠ []) :
    ∀ s, replace pat rep s = specReplaceAll pat rep s := by
  intro s
  exact (specReplaceGo_eq_replace pat rep hpat s.length s (Nat.le_refl _)).symm

/-- The write loop appends exactly the image of the input lines under the
per-line transformation. -/
theorem runLoopA_eq_append_map :
    ∀ (ls acc : List (List Char)),
      runLoopA acc ls = acc ++ ls.map convertLineA := by
  intro ls
  induction ls with
  | nil => intro acc; simp [runLoopA]
  | cons line rest ih =>
    intro acc
    rw [runLoopA, ih]
    simp

theorem runLoopA_nil_eq_map (ls : List (List Char)) :
    runLoopA [] ls = ls.map convertLineA := by
  rw [runLoopA_eq_append_map ls []]
  simp

/-! ### Concrete facts about the two Variant A rules -/

theorem patS1000_chars : patS1000 = 'S' :: '1' :: '0' :: '0' :: '0' :: [] := rfl

theorem patS0_chars : patS0 = 'S' :: '0' :: [] := rfl

theorem repZm1_chars : repZm1 = 'Z' :: '-' :: '1' :: [] := rfl

theorem repZ1_chars : repZ1 = 'Z' :: '1' :: [] := rfl

theorem isPrefixOf_cons_ne (a c : Char) (as l : List Char) (h : a ≠ c) :
    (a :: as).isPrefixOf (c :: l) = false := by
  rw [Bool.eq_false_iff]
  intro hpre
  exact h ((isPrefixOf_cons_iff a c as l).mp hpre).1

theorem isPrefixOf_cons_self (a : Char) (as l : List Char) :
    (a :: as).isPrefixOf (a :: l) = as.isPrefixOf l := by
  show (a == a && as.isPrefixOf l) = as.isPrefixOf l
  simp

/-- The `S0` rule passes over a text block that does not mention `S`. -/
theorem replace_patS0_append (a b : List Char) (h : 'S' ∉ a) :
    replace patS0 repZ1 (a ++ b) = a ++ replace patS0 repZ1 b :=
  replace_append_left 'S' ('0' :: []) repZ1 a b h

/-- The `S1000` rule passes over a text block that does not mention `S`. -/
theorem replace_patS1000_append (a b : List Char) (h : 'S' ∉ a) :
    replace patS1000 repZm1 (a ++ b) = a ++ replace patS1000 repZm1 b :=
  replace_append_left 'S' ('1' :: '0' :: '0' :: '0' :: []) repZm1 a b h

/-- The `S0` rule does not fire anywhere inside a literal `S1000`
occurrence. -/
theorem replace_patS0_on_S1000 (v : List Char) :
    replace patS0 repZ1 (patS1000 ++ v) = patS1000 ++ replace patS0 repZ1 v := by
  have hv : patS1000 ++ v = 'S' :: '1' :: '0' :: '0' :: '0' :: v := by
    rw [patS1000_chars]
    simp
  have h1 : patS0.isPrefixOf ('S' :: '1' :: '0' :: '0' :: '0' :: v) = false := by
    rw [patS0_chars, isPrefixOf_cons_self]
    exact isPrefixOf_cons_ne '0' '1' _ _ (by decide)
  rw [hv, replace_cons, h1]
  simp only [Bool.false_eq_true, if_false]
  have h2 : ('1' :: '0' :: '0' :: '0' :: v : List Char) =
      ('1' :: '0' :: '0' :: '0' :: []) ++ v := by simp
  rw [h2, replace_patS0_append _ v (by decide), patS1000_chars]
  simp

/-- The `S1000` rule does not fire anywhere inside a literal `S0`
occurrence. -/
theorem replace_patS1000_on_S0 (v : List Char) :
    replace patS1000 repZm1 (patS0 ++ v) = patS0 ++ replace patS1000 repZm1 v := by
  have hv : patS0 ++ v = 'S' :: '0' :: v := by
    rw [patS0_chars]
    simp
  have h1 : patS1000.isPrefixOf ('S' :: '0' :: v) = false := by
    rw [patS1000_chars, isPrefixOf_cons_self]
    exact isPrefixOf_cons_ne '1' '0' _ _ (by decide)
  have h2 : patS1000.isPrefixOf ('0' :: v) = false := by
    rw [patS1000_chars]
    exact isPrefixOf_cons_ne 'S' '0' _ _ (by decide)
  rw [hv, replace_cons, h1]
  simp only [Bool.false_eq_true, if_false]
  rw [replace_cons, h2]
  simp only [Bool.false_eq_true, if_false]
  rw [patS0_chars]
  simp

/-- The two Variant A rules commute: neither rule can consume, split, or
create an occurrence of the other rule's pattern. -/
theorem replace_rules_comm_all :
    ∀ s, replace patS0 repZ1 (replace patS1000 repZm1 s) =
      replace patS1000 repZm1 (replace patS0 repZ1 s) := by
  have key : ∀ n s : _, s.length ≤ n →
      replace patS0 repZ1 (replace patS1000 repZm1 s) =
        replace patS1000 repZm1 (replace patS0 repZ1 s) := by
    intro n
    induction n with
    | zero =>
      intro s hs
      have : s = [] := List.length_eq_zero.mp (Nat.le_zero.mp hs)
      subst this
      rfl
    | succ n ih =>
      intro s hs
      cases s with
      | nil => rfl
      | cons c rest =>
        simp only [List.length_cons] at hs
        by_cases h1 : patS1000.isPrefixOf (c :: rest)
        · obtain ⟨v, hv⟩ := List.isPrefixOf_iff_prefix.mp h1
          have hlen : v.length ≤ n := by
            have := congrArg List.length hv
            simp only [List.length_append, List.length_cons,
              patS1000_chars] at this
            simp only [List.length_cons, List.length_nil] at this
            omega
          rw [← hv,
            replace_append_match patS1000 repZm1 v (by decide),
            replace_patS0_on_S1000 v,
            replace_append_match patS1000 repZm1
              (replace patS0 repZ1 v) (by decide),
            replace_patS0_append repZm1
              (replace patS1000 repZm1 v) (by decide),
            ih v hlen]
        · by_cases h2 : patS0.isPrefixOf (c :: rest)
          · obtain ⟨v, hv⟩ := List.isPrefixOf_iff_prefix.mp h2
            have hlen : v.length ≤ n := by
              have := congrArg List.length hv
              simp only [List.length_append, List.length_cons,
                patS0_chars] at this
              simp only [List.length_cons, List.length_nil] at this
              omega
            rw [← hv,
              replace_patS1000_on_S0 v,
              replace_append_match patS0 repZ1
                (replace patS1000 repZm1 v) (by decide),
              replace_append_match patS0 repZ1 v (by decide),
              replace_patS1000_append repZ1
                (replace patS0 repZ1 v) (by decide),
              ih v hlen]
          · have f1 : patS0.isPrefixOf
                (c :: replace patS1000 repZm1 rest) = false := by
              rw [Bool.eq_false_iff]
              intro hpre
              rw [patS0_chars] at hpre
              obtain ⟨hc, hX⟩ :=
                (isPrefixOf_cons_iff 'S' c ('0' :: []) _).mp hpre
              rw [repZm1_chars] at hX
              have h0 : ('0' :: []).isPrefixOf rest = true :=
                isPrefixOf_replace_transfer ('0' :: []) patS1000
                  ('-' :: '1' :: []) 'Z' (by decide) rest ('0' :: [])
                  (List.suffix_refl _) hX
              apply h2
              rw [patS0_chars]
              exact (isPrefixOf_cons_iff 'S' c ('0' :: []) rest).mpr ⟨hc, h0⟩
            have f2 : patS1000.isPrefixOf
                (c :: replace patS0 repZ1 rest) = false := by
              rw [Bool.eq_false_iff]
              intro hpre
              rw [patS1000_chars] at hpre
              obtain ⟨hc, hX⟩ :=
                (isPrefixOf_cons_iff 'S' c
                  ('1' :: '0' :: '0' :: '0' :: []) _).mp hpre
              rw [repZ1_chars] at hX
              have h0 : ('1' :: '0' :: '0' :: '0' :: []).isPrefixOf rest
                  = true :=
                isPrefixOf_replace_transfer
                  ('1' :: '0' :: '0' :: '0' :: []) patS0
                  ('1' :: []) 'Z' (by decide) rest
                  ('1' :: '0' :: '0' :: '0' :: [])
                  (List.suffix_refl _) hX
              apply h1
              rw [patS1000_chars]
              exact (isPrefixOf_cons_iff 'S' c
                ('1' :: '0' :: '0' :: '0' :: []) rest).mpr ⟨hc, h0⟩
            rw [replace_cons patS1000 repZm1 c rest, if_neg h1,
              replace_cons patS0 repZ1 c rest, if_neg h2,
              replace_cons patS0 repZ1 c (replace patS1000 repZm1 rest), f1,
              replace_cons patS1000 repZm1 c (replace patS0 repZ1 rest), f2]
            simp only [Bool.false_eq_true, if_false]
            rw [ih rest (by omega)]
  intro s
  exact key s.length s (Nat.le_refl _)

/-- First rule's own output is `S1000`-free, and the second rule cannot
re-introduce an `S1000` occurrence. -/
theorem convertLineA_no_S1000 (line : List Char) :
    containsSub patS1000 (convertLineA line) = false := by
  have t1 : containsSub ('S' :: '1' :: '0' :: '0' :: '0' :: [])
      (replace ('S' :: '1' :: '0' :: '0' :: '0' :: [])
        ('Z' :: '-' :: '1' :: []) line) = false :=
    containsSub_replace_self 'S' 'Z' ('1' :: '0' :: '0' :: '0' :: [])
      ('-' :: '1' :: []) (by decide) (by decide) line
  have t2 := containsSub_replace_other 'S' 'Z' ('1' :: '0' :: '0' :: '0' :: [])
    ('S' :: '0' :: []) ('1' :: []) (by decide) (by decide) _ t1
  show containsSub patS1000
    (replace patS0 repZ1 (replace patS1000 repZm1 line)) = false
  rw [patS1000_chars, patS0_chars, repZm1_chars, repZ1_chars]
  exact t2

/-- The second rule leaves no `S0` occurrence in the final output. -/
theorem convertLineA_no_S0 (line : List Char) :
    containsSub patS0 (convertLineA line) = false := by
  show containsSub patS0
    (replace patS0 repZ1 (replace patS1000 repZm1 line)) = false
  rw [patS0_chars, repZ1_chars]
  exact containsSub_replace_self 'S' 'Z' ('0' :: []) ('1' :: [])
    (by decide) (by decide) _

/-! ### The occurrence decomposition and how the two rules act on it -/

theorem splitG_congr (pat : List Char) :
    ∀ m n s, s.length ≤ m → s.length ≤ n →
      splitG pat m s = splitG pat n s := by
  intro m
  induction m with
  | zero =>
    intro n s hm _
    have : s = [] := List.length_eq_zero.mp (Nat.le_zero.mp hm)
    subst this
    cases n <;> rfl
  | succ m ih =>
    intro n s hm hn
    cases s with
    | nil => cases n <;> rfl
    | cons c rest =>
      cases n with
      | zero => exact absurd hn (by simp)
      | succ n =>
        simp only [splitG]
        by_cases h : pat.isPrefixOf (c :: rest)
        · have hm' : (rest.drop (pat.length - 1)).length ≤ m := by
            have := List.length_drop (pat.length - 1) rest
            simp only [List.length_cons] at hm
            omega
          have hn' : (rest.drop (pat.length - 1)).length ≤ n := by
            have := List.length_drop (pat.length - 1) rest
            simp only [List.length_cons] at hn
            omega
          rw [if_pos h, if_pos h, ih n _ hm' hn']
        · have hm' : rest.length ≤ m := by
            simp only [List.length_cons] at hm; omega
          have hn' : rest.length ≤ n := by
            simp only [List.length_cons] at hn; omega
          rw [if_neg h, if_neg h, ih n rest hm' hn']

theorem splitOnPat_nil (pat : List Char) : splitOnPat pat [] = [[]] := rfl

theorem splitOnPat_ne_nil (pat s : List Char) : splitOnPat pat s ≠ [] := by
  simp [splitOnPat]

theorem splitOnPat_cons_match (pat : List Char) (c : Char) (rest : List Char)
    (hm : pat.isPrefixOf (c :: rest)) :
    splitOnPat pat (c :: rest) =
      [] :: splitOnPat pat (rest.drop (pat.length - 1)) := by
  show ((splitG pat (rest.length + 1) (c :: rest)).1 ::
    (splitG pat (rest.length + 1) (c :: rest)).2) = _
  simp only [splitG]
  rw [if_pos hm,
    splitG_congr pat rest.length (rest.drop (pat.length - 1)).length
      (rest.drop (pat.length - 1))
      (by rw [List.length_drop]; omega) (Nat.le_refl _)]
  rfl

theorem splitOnPat_cons_nomatch (pat : List Char) (c : Char)
    (rest seg : List Char) (segs : List (List Char))
    (hm : ¬pat.isPrefixOf (c :: rest))
    (hsplit : splitOnPat pat rest = seg :: segs) :
    splitOnPat pat (c :: rest) = (c :: seg) :: segs := by
  obtain ⟨h1, h2⟩ := List.cons.injEq _ _ _ _ ▸ hsplit
  show ((splitG pat (rest.length + 1) (c :: rest)).1 ::
    (splitG pat (rest.length + 1) (c :: rest)).2) = _
  simp only [splitG]
  rw [if_neg hm]
  show (c :: (splitG pat rest.length rest).1) ::
    (splitG pat rest.length rest).2 = _
  rw [h1, h2]

theorem joinWith_cons_cons (sep x y : List Char) (rest : List (List Char)) :
    joinWith sep (x :: y :: rest) = x ++ sep ++ joinWith sep (y :: rest) := rfl

theorem joinWith_cons_head (sep : List Char) (c : Char) (x : List Char)
    (xs : List (List Char)) :
    joinWith sep ((c :: x) :: xs) = c :: joinWith sep (x :: xs) := by
  cases xs with
  | nil => rfl
  | cons y rest => simp [joinWith]

/-- The first segment of the decomposition is an initial segment of the
scanned text. -/
theorem splitOnPat_head_isPrefix (pat : List Char) :
    ∀ s seg : List Char, ∀ segs : List (List Char),
      splitOnPat pat s = seg :: segs → seg <+: s := by
  have key : ∀ (n : Nat) (s : List Char), s.length ≤ n → ∀ seg segs,
      splitOnPat pat s = seg :: segs → seg <+: s := by
    intro n
    induction n with
    | zero =>
      intro s hs seg segs hsplit
      have : s = [] := List.length_eq_zero.mp (Nat.le_zero.mp hs)
      subst this
      rw [splitOnPat_nil] at hsplit
      obtain ⟨h1, _⟩ := List.cons.injEq _ _ _ _ ▸ hsplit
      exact h1 ▸ List.nil_prefix
    | succ n ih =>
      intro s hs seg segs hsplit
      cases s with
      | nil =>
        rw [splitOnPat_nil] at hsplit
        obtain ⟨h1, _⟩ := List.cons.injEq _ _ _ _ ▸ hsplit
        exact h1 ▸ List.nil_prefix
      | cons c rest =>
        simp only [List.length_cons] at hs
        by_cases hm : pat.isPrefixOf (c :: rest)
        · rw [splitOnPat_cons_match pat c rest hm] at hsplit
          obtain ⟨h1, _⟩ := List.cons.injEq _ _ _ _ ▸ hsplit
          exact h1 ▸ List.nil_prefix
        · cases hr : splitOnPat pat rest with
          | nil => exact absurd hr (splitOnPat_ne_nil pat rest)
          | cons seg₁ segs₁ =>
            rw [splitOnPat_cons_nomatch pat c rest seg₁ segs₁ hm hr] at hsplit
            obtain ⟨h1, _⟩ := List.cons.injEq _ _ _ _ ▸ hsplit
            obtain ⟨t, ht⟩ := ih rest (by omega) seg₁ segs₁ hr
            exact h1 ▸ ⟨t, by rw [List.cons_append, ht]⟩
  intro s
  exact key s.length s (Nat.le_refl _)

/-- Interleaving the pattern back between the segments of the
decomposition recovers the original text. -/
theorem joinWith_splitOnPat (pat : List Char) (hpat : pat ≠ []) :
    ∀ s, joinWith pat (splitOnPat pat s) = s := by
  have key : ∀ (n : Nat) (s : List Char), s.length ≤ n →
      joinWith pat (splitOnPat pat s) = s := by
    intro n
    induction n with
    | zero =>
      intro s hs
      have : s = [] := List.length_eq_zero.mp (Nat.le_zero.mp hs)
      subst this
      rfl
    | succ n ih =>
      intro s hs
      cases s with
      | nil => rfl
      | cons c rest =>
        simp only [List.length_cons] at hs
        by_cases hm : pat.isPrefixOf (c :: rest)
        · rw [splitOnPat_cons_match pat c rest hm]
          cases hr : splitOnPat pat (rest.drop (pat.length - 1)) with
          | nil => exact absurd hr (splitOnPat_ne_nil pat _)
          | cons segd segsd =>
            rw [joinWith_cons_cons, List.nil_append, ← hr,
              ih (rest.drop (pat.length - 1))
                (by rw [List.length_drop]; omega)]
            have hplen : pat.length - 1 + 1 = pat.length := by
              cases pat with
              | nil => exact absurd rfl hpat
              | cons p pt => simp
            have hdrop : (c :: rest).drop pat.length =
                rest.drop (pat.length - 1) := by
              rw [← hplen, List.drop_succ_cons, Nat.add_sub_cancel]
            obtain ⟨v, hv⟩ := List.isPrefixOf_iff_prefix.mp hm
            have hvdrop : (pat ++ v).drop pat.length = v := List.drop_left pat v
            rw [hv] at hvdrop
            have hvd : v = rest.drop (pat.length - 1) := by
              rw [← hvdrop, hdrop]
            rw [← hvd, hv]
        · cases hr : splitOnPat pat rest with
          | nil => exact absurd hr (splitOnPat_ne_nil pat rest)
          | cons seg segs =>
            rw [splitOnPat_cons_nomatch pat c rest seg segs hm hr,
              joinWith_cons_head, ← hr, ih rest (by omega)]
  intro s
  exact key s.length s (Nat.le_refl _)


/-- No segment of the decomposition contains an occurrence of the
pattern: any such occurrence would itself have been matched (and
consumed) by the left-to-right scan. -/
theorem splitOnPat_segments_free (p : Char) (pt : List Char) :
    ∀ s seg : List Char, seg ∈ splitOnPat (p :: pt) s →
      containsSub (p :: pt) seg = false := by
  have key : ∀ (n : Nat) (s : List Char), s.length ≤ n → ∀ seg,
      seg ∈ splitOnPat (p :: pt) s → containsSub (p :: pt) seg = false := by
    intro n
    induction n with
    | zero =>
      intro s hs seg hmem
      have : s = [] := List.length_eq_zero.mp (Nat.le_zero.mp hs)
      subst this
      rw [splitOnPat_nil] at hmem
      have : seg = [] := by simpa using hmem
      subst this
      rfl
    | succ n ih =>
      intro s hs seg hmem
      cases s with
      | nil =>
        rw [splitOnPat_nil] at hmem
        have : seg = [] := by simpa using hmem
        subst this
        rfl
      | cons c rest =>
        simp only [List.length_cons] at hs
        by_cases hm : (p :: pt).isPrefixOf (c :: rest)
        · rw [splitOnPat_cons_match _ c rest hm] at hmem
          rcases List.mem_cons.mp hmem with h | h
          · subst h
            rfl
          · exact ih (rest.drop ((p :: pt).length - 1))
              (by rw [List.length_drop]; omega) seg h
        · cases hr : splitOnPat (p :: pt) rest with
          | nil => exact absurd hr (splitOnPat_ne_nil _ rest)
          | cons seg₁ segs₁ =>
            rw [splitOnPat_cons_nomatch _ c rest seg₁ segs₁ hm hr] at hmem
            rcases List.mem_cons.mp hmem with h | h
            · subst h
              have h2 : containsSub (p :: pt) seg₁ = false :=
                ih rest (by omega) seg₁
                  (by rw [hr]; exact List.mem_cons_self seg₁ segs₁)
              have h1 : (p :: pt).isPrefixOf (c :: seg₁) = false := by
                rw [Bool.eq_false_iff]
                intro hpre
                have hseg : seg₁ <+: rest :=
                  splitOnPat_head_isPrefix (p :: pt) rest seg₁ segs₁ hr
                have hcs : (c :: seg₁) <+: (c :: rest) := by
                  obtain ⟨t, ht⟩ := hseg
                  exact ⟨t, by rw [List.cons_append, ht]⟩
                exact hm (List.isPrefixOf_iff_prefix.mpr
                  ((List.isPrefixOf_iff_prefix.mp hpre).trans hcs))
              rw [containsSub_cons, h1, h2, Bool.or_self]
            · exact ih rest (by omega) seg
                (by rw [hr]; exact List.mem_cons_of_mem seg₁ h)
  intro s
  exact key s.length s (Nat.le_refl _)

/-- The scanner's output is the decomposition's segments interleaved with
verbatim copies of the replacement text. -/
theorem replace_eq_joinWith (pat rep : List Char) :
    ∀ s, replace pat rep s = joinWith rep (splitOnPat pat s) := by
  have key : ∀ (n : Nat) (s : List Char), s.length ≤ n →
      replace pat rep s = joinWith rep (splitOnPat pat s) := by
    intro n
    induction n with
    | zero =>
      intro s hs
      have : s = [] := List.length_eq_zero.mp (Nat.le_zero.mp hs)
      subst this
      rfl
    | succ n ih =>
      intro s hs
      cases s with
      | nil => rfl
      | cons c rest =>
        simp only [List.length_cons] at hs
        rw [replace_cons]
        by_cases hm : pat.isPrefixOf (c :: rest)
        · rw [if_pos hm, splitOnPat_cons_match pat c rest hm]
          cases hr : splitOnPat pat (rest.drop (pat.length - 1)) with
          | nil => exact absurd hr (splitOnPat_ne_nil pat _)
          | cons segd segsd =>
            rw [joinWith_cons_cons, List.nil_append, ← hr,
              ← ih (rest.drop (pat.length - 1))
                (by rw [List.length_drop]; omega)]
        · rw [if_neg hm]
          cases hr : splitOnPat pat rest with
          | nil => exact absurd hr (splitOnPat_ne_nil pat rest)
          | cons seg segs =>
            rw [splitOnPat_cons_nomatch pat c rest seg segs hm hr,
              joinWith_cons_head, ← hr, ← ih rest (by omega)]
  intro s
  exact key s.length s (Nat.le_refl _)

theorem nil_isPrefixOf_true (l : List Char) :
    ([] : List Char).isPrefixOf l = true :=
  List.isPrefixOf_iff_prefix.mpr ⟨l, rfl⟩

/-- The `S0` scan distributes over an append whose right part does not
start with `0`: no `S0` match can span the boundary, because the only
proper prefix of `S0` that could end the left part is `S`, and it would
need a `0` right after the boundary. -/
theorem replace_patS0_append_safe :
    ∀ a b : List Char, b.head? ≠ some '0' →
      replace patS0 repZ1 (a ++ b) =
        replace patS0 repZ1 a ++ replace patS0 repZ1 b := by
  have key : ∀ (n : Nat) (a b : List Char), a.length ≤ n →
      b.head? ≠ some '0' →
      replace patS0 repZ1 (a ++ b) =
        replace patS0 repZ1 a ++ replace patS0 repZ1 b := by
    intro n
    induction n with
    | zero =>
      intro a b ha _
      have : a = [] := List.length_eq_zero.mp (Nat.le_zero.mp ha)
      subst this
      simp [replace_nil]
    | succ n ih =>
      intro a b ha hb
      cases a with
      | nil => simp [replace_nil]
      | cons c rest =>
        simp only [List.length_cons] at ha
        by_cases hm : patS0.isPrefixOf (c :: rest)
        · rw [patS0_chars] at hm
          obtain ⟨hc, h0⟩ := (isPrefixOf_cons_iff 'S' c ('0' :: []) rest).mp hm
          cases rest with
          | nil => exact absurd h0 (by decide)
          | cons r0 rest' =>
            obtain ⟨hr0, _⟩ := (isPrefixOf_cons_iff '0' r0 [] rest').mp h0
            subst hc
            subst hr0
            simp only [List.cons_append]
            have hm1 : patS0.isPrefixOf ('S' :: '0' :: (rest' ++ b)) = true := by
              rw [patS0_chars]
              exact (isPrefixOf_cons_iff _ _ _ _).mpr
                ⟨rfl, (isPrefixOf_cons_iff _ _ _ _).mpr
                  ⟨rfl, nil_isPrefixOf_true _⟩⟩
            have hm2 : patS0.isPrefixOf ('S' :: '0' :: rest') = true := by
              rw [patS0_chars]
              exact (isPrefixOf_cons_iff _ _ _ _).mpr
                ⟨rfl, (isPrefixOf_cons_iff _ _ _ _).mpr
                  ⟨rfl, nil_isPrefixOf_true _⟩⟩
            rw [replace_cons patS0 repZ1 'S' ('0' :: (rest' ++ b)), if_pos hm1,
              replace_cons patS0 repZ1 'S' ('0' :: rest'), if_pos hm2,
              show ('0' :: (rest' ++ b)).drop (patS0.length - 1) = rest' ++ b
                from rfl,
              show ('0' :: rest').drop (patS0.length - 1) = rest' from rfl,
              ih rest' b (by simp only [List.length_cons] at ha; omega) hb]
            simp [List.append_assoc]
        · cases rest with
          | nil =>
            have h1 : patS0.isPrefixOf (c :: b) = false := by
              rw [Bool.eq_false_iff]
              intro hpre
              rw [patS0_chars] at hpre
              obtain ⟨hc, h0⟩ :=
                (isPrefixOf_cons_iff 'S' c ('0' :: []) b).mp hpre
              cases b with
              | nil => exact absurd h0 (by decide)
              | cons b0 b' =>
                obtain ⟨hb0, _⟩ := (isPrefixOf_cons_iff '0' b0 [] b').mp h0
                exact hb (by rw [← hb0]; rfl)
            have h2 : patS0.isPrefixOf (c :: ([] : List Char)) = false := by
              rw [Bool.eq_false_iff]
              intro hpre
              rw [patS0_chars] at hpre
              obtain ⟨_, h0⟩ :=
                (isPrefixOf_cons_iff 'S' c ('0' :: []) []).mp hpre
              exact absurd h0 (by decide)
            simp only [List.cons_append, List.nil_append]
            rw [replace_cons patS0 repZ1 c b, h1,
              replace_cons patS0 repZ1 c [], h2]
            simp only [Bool.false_eq_true, if_false]
            rw [replace_nil]
            simp
          | cons r0 rest' =>
            have hmb : patS0.isPrefixOf (c :: r0 :: (rest' ++ b)) = false := by
              rw [Bool.eq_false_iff]
              intro hpre
              rw [patS0_chars] at hpre
              obtain ⟨hc, h0⟩ :=
                (isPrefixOf_cons_iff 'S' c ('0' :: []) _).mp hpre
              obtain ⟨hr0, _⟩ := (isPrefixOf_cons_iff '0' r0 [] _).mp h0
              apply hm
              rw [patS0_chars]
              exact (isPrefixOf_cons_iff _ _ _ _).mpr
                ⟨hc, (isPrefixOf_cons_iff _ _ _ _).mpr
                  ⟨hr0, nil_isPrefixOf_true _⟩⟩
            simp only [List.cons_append]
            rw [replace_cons patS0 repZ1 c (r0 :: (rest' ++ b)), hmb]
            simp only [Bool.false_eq_true, if_false]
            rw [replace_cons patS0 repZ1 c (r0 :: rest'), if_neg hm]
            have hih := ih (r0 :: rest') b
              (by simp only [List.length_cons] at ha ⊢; omega) hb
            simp only [List.cons_append] at hih
            rw [hih]
            simp
  intro a b hb
  exact key a.length a b (Nat.le_refl _) hb

/-- The `S0` rule acts segment by segment on a text interleaved with
`Z-1` blocks: the blocks contain no `S`, start with `Z`, and are three
characters long, so no `S0` match can touch or cross them. -/
theorem replace_patS0_joinWith :
    ∀ segs : List (List Char),
      replace patS0 repZ1 (joinWith repZm1 segs) =
        joinWith repZm1 (segs.map (replace patS0 repZ1)) := by
  intro segs
  induction segs with
  | nil => rfl
  | cons x xs ih =>
    cases xs with
    | nil => rfl
    | cons y rest =>
      rw [joinWith_cons_cons, List.append_assoc]
      have hb : (repZm1 ++ joinWith repZm1 (y :: rest)).head? ≠ some '0' := by
        rw [repZm1_chars, List.cons_append]
        intro h
        rw [List.head?_cons] at h
        exact absurd (Option.some.inj h) (by decide)
      rw [replace_patS0_append_safe x (repZm1 ++ joinWith repZm1 (y :: rest)) hb,
        replace_patS0_append repZm1 (joinWith repZm1 (y :: rest)) (by decide),
        ih]
      simp [joinWith_cons_cons, List.append_assoc]

/-! ### Claim theorems -/

/-- C1: for every input line, the Variant A output line equals the result
of first globally replacing every non-overlapping occurrence of the
literal `S1000` with `Z-1`, and then globally replacing every
non-overlapping occurrence of `S0` with `Z1` in the line produced by the
first replacement — the code's scanner coincides with the spec's
"leftmost occurrence, replace, continue after it" description, applied
rule after rule on the current content. -/
theorem convertLineA_matches_spec (line : List Char) :
    convertLineA line = specConvertLineA line := by
  show replace patS0 repZ1 (replace patS1000 repZm1 line) =
    specReplaceAll patS0 repZ1 (specReplaceAll patS1000 repZm1 line)
  rw [← replace_eq_specReplaceAll patS1000 repZm1 (by decide) line,
    ← replace_eq_specReplaceAll patS0 repZ1 (by decide)
      (replace patS1000 repZm1 line)]

/-- C2: for every input line, each occurrence of `S1000` appears in the
Variant A output as exactly `Z-1`.  Precisely: the line is recovered by
interleaving `S1000` between the segments of its occurrence
decomposition, those segments carry no `S1000` occurrence (so the
separator positions are exactly the occurrences), and the output line is
those same segments — each rewritten only by the `S0` rule — interleaved
with verbatim `Z-1` blocks.  Hence the `S0` rule never rewrites the text
the `S1000` rule produced, no occurrence yields `Z1000` or `Z-10`, and no
occurrence of `S1000` remains in the output line. -/
theorem convertLineA_eliminates_S1000 (line : List Char) :
    joinWith patS1000 (splitOnPat patS1000 line) = line ∧
      ((splitOnPat patS1000 line).all
        (fun seg => !(containsSub patS1000 seg))) = true ∧
      convertLineA line =
        joinWith repZm1
          ((splitOnPat patS1000 line).map (replace patS0 repZ1)) ∧
      containsSub patS1000 (convertLineA line) = false := by
  refine ⟨joinWith_splitOnPat patS1000 (by decide) line, ?_, ?_,
    convertLineA_no_S1000 line⟩
  · rw [List.all_eq_true]
    intro seg hseg
    rw [Bool.not_eq_true']
    have hseg' : seg ∈ splitOnPat ('S' :: '1' :: '0' :: '0' :: '0' :: []) line := by
      rw [← patS1000_chars]
      exact hseg
    have := splitOnPat_segments_free 'S' ('1' :: '0' :: '0' :: '0' :: [])
      line seg hseg'
    rw [patS1000_chars]
    exact this
  · show replace patS0 repZ1 (replace patS1000 repZm1 line) = _
    rw [replace_eq_joinWith patS1000 repZm1 line,
      replace_patS0_joinWith (splitOnPat patS1000 line)]

/-- C3: the output contains exactly one line per input line in the same
order — the write loop emits precisely the image of the input lines under
the per-line transformation, so no line is dropped, merged, duplicated or
reordered, and the line counts agree. -/
theorem output_lines_correspond (inputLines : List (List Char)) :
    runLoopA [] inputLines = inputLines.map convertLineA ∧
      (runLoopA [] inputLines).length = inputLines.length := by
  refine ⟨runLoopA_nil_eq_map inputLines, ?_⟩
  rw [runLoopA_nil_eq_map inputLines, List.length_map]

/-- C4: with an argument count other than exactly one input path
(`len(sys.argv) != 2`), the program prints the usage text to standard
output and exits with status 1, producing no output file — regardless of
what the input file would have contained. -/
theorem usage_error_behavior (argv inputLines : List (List Char))
    (h : argv.length ≠ 2) :
    convertProgramA argv inputLines =
      { exitCode := 1, stdout := [usageMessage], outputFile := none } ∧
      usageMessage = "Usage: python convert.py <input_file>".data := by
  constructor
  · show (if argv.length ≠ 2 then _ else _) = _
    rw [if_pos h]
  · rfl

theorem usage_error_behavior_witness :
    convertProgramA ("convert.py".data :: []) ("G1 S1000 X10\n".data :: []) =
      { exitCode := 1, stdout := [usageMessage], outputFile := none } :=
  (usage_error_behavior ("convert.py".data :: [])
    ("G1 S1000 X10\n".data :: []) (by decide)).1

/-- C5: a line containing neither `S1000` nor `S0` passes through
byte-for-byte unchanged, terminator characters included. -/
theorem unmatched_line_unchanged (line : List Char)
    (h1 : containsSub patS1000 line = false)
    (h2 : containsSub patS0 line = false) :
    convertLineA line = line := by
  show replace patS0 repZ1 (replace patS1000 repZm1 line) = line
  rw [replace_of_containsSub_eq_false patS1000 repZm1 line h1,
    replace_of_containsSub_eq_false patS0 repZ1 line h2]

theorem unmatched_line_unchanged_witness :
    containsSub patS1000 ("G1 X10 Y5 \r\n".data) = false ∧
      containsSub patS0 ("G1 X10 Y5 \r\n".data) = false ∧
      convertLineA ("G1 X10 Y5 \r\n".data) = "G1 X10 Y5 \r\n".data :=
  ⟨by decide, by decide,
    unmatched_line_unchanged ("G1 X10 Y5 \r\n".data) (by decide) (by decide)⟩

/-- C6: on a successful run (exactly one input path), Variant A writes
the transformed lines to the file `converted_output.nc`, prints
`Converted file written to converted_output.nc` to standard output, and
exits with status 0. -/
theorem success_run_behavior (argv inputLines : List (List Char))
    (h : argv.length = 2) :
    convertProgramA argv inputLines =
      { exitCode := 0
        stdout := ["Converted file written to converted_output.nc".data]
        outputFile := some ("converted_output.nc".data,
          inputLines.map convertLineA) } := by
  show (if argv.length ≠ 2 then _ else _) = _
  rw [if_neg (by omega : ¬argv.length ≠ 2), runLoopA_nil_eq_map]
  rfl

theorem success_run_behavior_witness :
    convertProgramA ("convert.py".data :: "input.nc".data :: [])
        ("G1 S1000 X10\n".data :: "G1 S0 Y5\n".data :: []) =
      { exitCode := 0
        stdout := ["Converted file written to converted_output.nc".data]
        outputFile := some ("converted_output.nc".data,
          "G1 Z-1 X10\n".data :: "G1 Z1 Y5\n".data :: []) } := by
  rw [success_run_behavior ("convert.py".data :: "input.nc".data :: [])
    ("G1 S1000 X10\n".data :: "G1 S0 Y5\n".data :: []) (by decide)]
  decide

/-- C7: Variant B streams its transformed lines to standard output and
creates no output file, using the replacement set `S1000 → Z-1 F1000`,
`S0 → Z1 F1000`; in particular the input line `G1 S1000 X10\n` yields the
stdout line `G1 Z-1 F1000 X10\n`.  (Variant B is modelled from the spec:
its source file is not under `src/`.) -/
theorem variantB_stream_behavior (argv inputLines : List (List Char))
    (h : argv.length = 2) :
    convertProgramB argv inputLines =
      { exitCode := 0
        stdout := inputLines.map convertLineB
        outputFile := none } ∧
      convertLineB ("G1 S1000 X10\n".data) = "G1 Z-1 F1000 X10\n".data := by
  constructor
  · show (if argv.length ≠ 2 then _ else _) = _
    rw [if_neg (by omega : ¬argv.length ≠ 2)]
  · decide

theorem variantB_stream_behavior_witness :
    convertProgramB ("convert.py".data :: "input.nc".data :: [])
        ("G1 S1000 X10\n".data :: []) =
      { exitCode := 0
        stdout := ("G1 Z-1 F1000 X10\n".data :: [])
        outputFile := none } := by
  rw [(variantB_stream_behavior ("convert.py".data :: "input.nc".data :: [])
    ("G1 S1000 X10\n".data :: []) (by decide)).1]
  decide

/-- C8: the Variant A per-line transformation is idempotent — its output
contains no occurrence of `S1000` or `S0`, so running the two-rule
pipeline on its own output changes nothing. -/
theorem convertLineA_idempotent (line : List Char) :
    convertLineA (convertLineA line) = convertLineA line := by
  show replace patS0 repZ1 (replace patS1000 repZm1 (convertLineA line)) =
    convertLineA line
  rw [replace_of_containsSub_eq_false patS1000 repZm1 _
      (convertLineA_no_S1000 line),
    replace_of_containsSub_eq_false patS0 repZ1 _ (convertLineA_no_S0 line)]

/-- C9: the two Variant A rules commute — performing the two global
replacements in the opposite order (`S0 → Z1` first, then
`S1000 → Z-1`) produces the same line as the pipeline's order. -/
theorem convertLineA_rules_commute (line : List Char) :
    convertLineA line = replace patS1000 repZm1 (replace patS0 repZ1 line) :=
  replace_rules_comm_all line

/-- C10: the Variant A output line is never longer than the input line:
`S1000 → Z-1` shrinks each occurrence by two characters and `S0 → Z1`
preserves length. -/
theorem convertLineA_never_lengthens (line : List Char) :
    (convertLineA line).length ≤ line.length :=
  Nat.le_trans
    (replace_length_le patS0 repZ1 (by decide) (replace patS1000 repZm1 line))
    (replace_length_le patS1000 repZm1 (by decide) line)
